import Mathlib

/-!
# Verification of the orchestration loop of `computer-use`

A shallow embedding of the core of the repository: the tool registry and
dispatch (`src/tools/base.ts`, class `ToolCollection`), the result assembler
(`src/loop.ts`, `SamplingLoop.makeApiToolResult` and
`maybePrependSystemToolResult`), the image-retention trimmer
(`SamplingLoop.filterNMostRecentImages`) and the sampling loop itself
(`SamplingLoop.run`).

Conventions of the embedding:
* JavaScript strings are `String`; optional / nullable string fields are
  `Option String`, and the JavaScript truthiness test `if (s)` on such a
  field is `strTruthy` (false on `none`, `some ""`).
* JavaScript numbers are `Nat` where the source only ever holds counts, and
  `Int` with truncated remainder (`Int.tmod`, the semantics of the `%`
  operator of JavaScript on integers) where the source can go negative.
* The reasoning service (`client.beta.messages.create`) is an oracle: `run`
  takes the list of responses the service would give, one per turn, and the
  exhaustion of that list stands for a run that is still going (so `none`
  is "did not terminate within the supplied responses").
* The observer callbacks (`outputCallback`, `toolOutputCallback`,
  `apiResponseCallback`) return `void` and touch no loop state, so they are
  dropped from the embedding.
-/

namespace ComputerUse

/-- JavaScript truthiness of an optional string field: `undefined`, `null`
and `""` are falsy. -/
def strTruthy (o : Option String) : Bool := o.getD "" != ""

/-- One item of `tool_result` content: `BetaTextBlockParam` or
`BetaImageBlockParam` (its base64 source). -/
inductive TRContent where
  | text (text : String)
  | image (mediaType : String) (data : String)
deriving DecidableEq, Repr

/-- A content block of a message: `BetaContentBlockParam` restricted to the
variants the loop creates or inspects (`text`, `tool_use`, `tool_result`). -/
inductive Block where
  | text (text : String)
  | toolUse (id : String) (name : String) (input : List (String × String))
  | toolResult (toolUseId : String) (content : List TRContent) (isError : Bool)
deriving DecidableEq, Repr

inductive Role where
  | user
  | assistant
deriving DecidableEq, Repr

/-- `BetaMessageParam.content`: a plain string or an array of blocks. -/
inductive MsgContent where
  | str (s : String)
  | blocks (bs : List Block)
deriving DecidableEq, Repr

/-- `BetaMessageParam`. -/
structure Message where
  role : Role
  content : MsgContent
deriving DecidableEq, Repr

/-- `ToolResult` of `src/tools/base.ts`: all fields optional. -/
structure ToolResult where
  output : Option String
  error : Option String
  base64Image : Option String
  system : Option String
  mediaType : Option String
deriving DecidableEq, Repr

/-- `new ToolFailure(msg)`: a `ToolResult` with only `error` set. -/
def ToolFailure (error : String) : ToolResult :=
  ⟨none, some error, none, none, none⟩

/-- What `tool.execute(input)` can do: resolve with a result, throw a
`ToolError`, or throw anything else (carried stringified, as
template-literal interpolation would show it). -/
inductive ExecOutcome where
  | ok (result : ToolResult)
  | toolError (message : String)
  | otherError (message : String)

/-- One tool of the collection: its advertised name (`toParams().name`) and
its `execute`. -/
structure Tool where
  name : String
  execute : List (String × String) → ExecOutcome

/-- `Map.prototype.set`: overwrite the entry with the same key in place,
else append. -/
def mapSet (m : List (String × Tool)) (k : String) (v : Tool) :
    List (String × Tool) :=
  match m with
  | [] => [(k, v)]
  | (k', v') :: rest => if k' = k then (k, v) :: rest else (k', v') :: mapSet rest k v

/-- `Map.prototype.get`. -/
def mapGet (m : List (String × Tool)) (k : String) : Option Tool :=
  match m with
  | [] => none
  | (k', v) :: rest => if k' = k then some v else mapGet rest k

/-- `ToolCollection` of `src/tools/base.ts`: the name-keyed tool map. -/
structure ToolCollection where
  toolMap : List (String × Tool)

/-- The `ToolCollection` constructor: `tools.forEach(t => map.set(t.name, t))`. -/
def ToolCollection.ofTools (tools : List Tool) : ToolCollection :=
  ⟨tools.foldl (fun m t => mapSet m t.name t) []⟩

/-- `ToolCollection.run` of `src/tools/base.ts`: look the name up; absent
names give a `ToolFailure` naming the tool; a thrown `ToolError` gives a
`ToolFailure` with its message; any other throw gives a `ToolFailure` with
the stringified error wrapped as `Unknown error: ...`. -/
def ToolCollection.run (tc : ToolCollection) (name : String)
    (toolInput : List (String × String)) : ToolResult :=
  match mapGet tc.toolMap name with
  | none => ToolFailure ("Tool " ++ name ++ " is invalid")
  | some tool =>
    match tool.execute toolInput with
    | .ok r => r
    | .toolError message => ToolFailure message
    | .otherError message => ToolFailure ("Unknown error: " ++ message)

/-- `SamplingLoop.maybePrependSystemToolResult`. -/
def maybePrependSystemToolResult (result : ToolResult) (text : String) : String :=
  if strTruthy result.system then
    "<system>" ++ result.system.getD "" ++ "</system>\n" ++ text
  else text

/-- `SamplingLoop.makeApiToolResult`: assemble one `tool_result` block from a
`ToolResult` and the originating `tool_use` id. -/
def makeApiToolResult (result : ToolResult) (toolUseId : String) : Block :=
  if strTruthy result.error then
    .toolResult toolUseId
      [.text (maybePrependSystemToolResult result (result.error.getD ""))] true
  else
    .toolResult toolUseId
      ((if strTruthy result.output then
          [TRContent.text (maybePrependSystemToolResult result (result.output.getD ""))]
        else []) ++
       (if strTruthy result.base64Image then
          [TRContent.image
            (if strTruthy result.mediaType then result.mediaType.getD "" else "image/png")
            (result.base64Image.getD "")]
        else []))
      false

/-! ## The trimmer, `SamplingLoop.filterNMostRecentImages` -/

def isImageItem : TRContent → Bool
  | .image _ _ => true
  | .text _ => false

def isToolResultBlock : Block → Bool
  | .toolResult _ _ _ => true
  | _ => false

/-- `Array.isArray(message.content) ? message.content : []`. -/
def msgBlocks (m : Message) : List Block :=
  match m.content with
  | .str _ => []
  | .blocks bs => bs

/-- The `toolResultBlocks` of the source: every `tool_result` block of every
message, in conversation order. -/
def toolResultBlocksOf (messages : List Message) : List Block :=
  (messages.flatMap msgBlocks).filter isToolResultBlock

/-- Images inside one `tool_result` content array. -/
def countImagesTR (content : List TRContent) : Nat :=
  (content.filter isImageItem).length

/-- The `totalImages` reduce of the source. -/
def totalImagesIn (messages : List Message) : Nat :=
  (toolResultBlocksOf messages).foldl
    (fun count b =>
      match b with
      | .toolResult _ c _ => count + countImagesTR c
      | _ => count)
    0

/-- The inner `result.content.filter` of the source: walk the content, drop
an image while the removal budget is positive (decrementing it), keep
everything else.  Returns the leftover budget with the new content. -/
def removeImagesTR : Nat → List TRContent → Nat × List TRContent
  | k, [] => (k, [])
  | k, item :: rest =>
    match item with
    | .image m d =>
      if 0 < k then removeImagesTR (k - 1) rest
      else
        let (k', rest') := removeImagesTR k rest
        (k', .image m d :: rest')
    | .text t =>
      let (k', rest') := removeImagesTR k rest
      (k', .text t :: rest')

/-- The budget threaded through one block: only `tool_result` blocks are
rewritten (the source iterates over `toolResultBlocks` only). -/
def removeImagesBlock (k : Nat) (b : Block) : Nat × Block :=
  match b with
  | .toolResult id c e =>
    let (k', c') := removeImagesTR k c
    (k', .toolResult id c' e)
  | b => (k, b)

def removeImagesBlocks : Nat → List Block → Nat × List Block
  | k, [] => (k, [])
  | k, b :: rest =>
    let (k1, b') := removeImagesBlock k b
    let (k2, rest') := removeImagesBlocks k1 rest
    (k2, b' :: rest')

def removeImagesMsg (k : Nat) (m : Message) : Nat × Message :=
  match m.content with
  | .str s => (k, ⟨m.role, .str s⟩)
  | .blocks bs =>
    let (k', bs') := removeImagesBlocks k bs
    (k', ⟨m.role, .blocks bs'⟩)

/-- The mutation loop of the source, as a fold: the `tool_result` blocks are
references into the messages, so rewriting them in collection order is
rewriting the messages in conversation order with the one budget threaded
through. -/
def removeImagesMsgs : Nat → List Message → Nat × List Message
  | k, [] => (k, [])
  | k, m :: rest =>
    let (k1, m') := removeImagesMsg k m
    let (k2, rest') := removeImagesMsgs k1 rest
    (k2, m' :: rest')

/-- `SamplingLoop.filterNMostRecentImages`.  The source's
`minRemovalThreshold` parameter defaults to `10`; the embedding passes it
explicitly.  `imagesToRemove` is a JavaScript number that can go negative,
so it is an `Int` and `%` is the truncated remainder `Int.tmod`. -/
def filterNMostRecentImages (messages : List Message) (imagesToKeep : Nat)
    (minRemovalThreshold : Nat) : List Message :=
  let totalImages := totalImagesIn messages
  let imagesToRemove : Int := (totalImages : Int) - (imagesToKeep : Int)
  let imagesToRemove := imagesToRemove - Int.tmod imagesToRemove (minRemovalThreshold : Int)
  if imagesToRemove ≤ 0 then messages
  else (removeImagesMsgs imagesToRemove.toNat messages).2

/-! ## The loop, `SamplingLoop.run` -/

/-- The `tool_use` dispatch of one response's content: the
`toolResultContent` array `run` accumulates over the `for (const block of
response.content)` loop. -/
def toolUseResults (tc : ToolCollection) (content : List Block) : List Block :=
  content.filterMap fun block =>
    match block with
    | .toolUse id name input =>
      some (makeApiToolResult (ToolCollection.run tc name input) id)
    | _ => none

/-- The `while (true)` body of `SamplingLoop.run`, driven by the oracle list
of service responses: append the response as an assistant message, dispatch
its `tool_use` blocks, return when no tool result was produced, else append
the results as a user message and continue.  `none` stands for a run that
has not terminated within the supplied responses. -/
def SamplingLoop.runAux (tc : ToolCollection) (responses : List (List Block))
    (messages : List Message) : Option (List Message) :=
  match responses with
  | [] => none
  | response :: rest =>
    let messages := messages ++ [⟨.assistant, .blocks response⟩]
    let toolResultContent := toolUseResults tc response
    if toolResultContent.isEmpty then some messages
    else SamplingLoop.runAux tc rest (messages ++ [⟨.user, .blocks toolResultContent⟩])

/-- `SamplingLoop.run`: the `if (onlyNMostRecentImages)` entry trim (the
truthiness test skips `undefined` and `0`) followed by the `while (true)`
loop.  The trim call leaves `minRemovalThreshold` at its default `10`. -/
def SamplingLoop.run (tc : ToolCollection) (onlyNMostRecentImages : Option Nat)
    (responses : List (List Block)) (messages : List Message) :
    Option (List Message) :=
  let messages :=
    if onlyNMostRecentImages.getD 0 ≠ 0 then
      filterNMostRecentImages messages (onlyNMostRecentImages.getD 0) 10
    else messages
  SamplingLoop.runAux tc responses messages

/-! ## The spec's reading of the trim point

`spec.md` §4.2 step 1 asks for the trimmer to run before *each*
reasoning-service call.  The loop below follows those words; comparing it
with `SamplingLoop.run` settles whether the source re-evaluates eviction
every turn. -/

/-- Modelled from the spec: the turn algorithm with step 1 ("If configured,
apply the Trimmer to the full conversation before each reasoning-service
call") executed at the top of every iteration, everything else as in
`SamplingLoop.runAux`. -/
def runPerTurnTrim (tc : ToolCollection) (imagesToKeep : Nat)
    (responses : List (List Block)) (messages : List Message) :
    Option (List Message) :=
  match responses with
  | [] => none
  | response :: rest =>
    let messages := filterNMostRecentImages messages imagesToKeep 10
    let messages := messages ++ [⟨.assistant, .blocks response⟩]
    let toolResultContent := toolUseResults tc response
    if toolResultContent.isEmpty then some messages
    else runPerTurnTrim tc imagesToKeep rest (messages ++ [⟨.user, .blocks toolResultContent⟩])

/-! ## Derived views used by the statements -/

/-- The ordered sequence of image occurrences the trimmer walks: every image
inside every `tool_result` block, in conversation order. -/
def imageSeqTR (content : List TRContent) : List TRContent :=
  content.filter isImageItem

def imageSeqBlock (b : Block) : List TRContent :=
  match b with
  | .toolResult _ c _ => imageSeqTR c
  | _ => []

def imageSeq (messages : List Message) : List TRContent :=
  (messages.flatMap msgBlocks).flatMap imageSeqBlock

/-- The `tool_use` ids of a content array, in order. -/
def requestIds (content : List Block) : List String :=
  content.filterMap fun b =>
    match b with
    | .toolUse id _ _ => some id
    | _ => none

/-- The `tool_use_id`s of the `tool_result` blocks of a content array, in
order. -/
def resultIds (content : List Block) : List String :=
  content.filterMap fun b =>
    match b with
    | .toolResult id _ _ => some id
    | _ => none

/-- Whether a response content array holds at least one `tool_use` block. -/
def hasToolUse (content : List Block) : Bool :=
  content.any fun b =>
    match b with
    | .toolUse _ _ _ => true
    | _ => false

/-- The shape of what one terminating execution of the loop body appends to
the conversation: assistant/user pairs (the user message holding exactly the
dispatched results of the assistant message just before it), closed by a
final assistant message that produced no tool result. -/
inductive LoopSuffix (tc : ToolCollection) : List Message → Prop where
  | last (response : List Block) :
      toolUseResults tc response = [] →
      LoopSuffix tc [⟨.assistant, .blocks response⟩]
  | step (response : List Block) (rest : List Message) :
      toolUseResults tc response ≠ [] →
      LoopSuffix tc rest →
      LoopSuffix tc
        (⟨.assistant, .blocks response⟩ ::
         ⟨.user, .blocks (toolUseResults tc response)⟩ :: rest)

/-- `tool_result` contents related by deleting image items only: text items
and the relative order of what remains are untouched. -/
inductive OnlyImagesRemovedTR : List TRContent → List TRContent → Prop where
  | nil : OnlyImagesRemovedTR [] []
  | keep (c : TRContent) {t t' : List TRContent} :
      OnlyImagesRemovedTR t t' → OnlyImagesRemovedTR (c :: t) (c :: t')
  | dropImage (m d : String) {t t' : List TRContent} :
      OnlyImagesRemovedTR t t' → OnlyImagesRemovedTR (.image m d :: t) t'

/-- Blocks related by deleting images inside `tool_result` content only: any
other block (and a `tool_result`'s id and error flag) is unchanged. -/
def OnlyImagesRemovedBlock (b b' : Block) : Prop :=
  match b, b' with
  | .toolResult id c e, .toolResult id' c' e' =>
      id = id' ∧ e = e' ∧ OnlyImagesRemovedTR c c'
  | b, b' => b = b'

/-- Messages related by deleting images inside `tool_result` content only:
role and non-block content unchanged, blocks related pointwise. -/
def OnlyImagesRemovedMsg (m m' : Message) : Prop :=
  m.role = m'.role ∧
  match m.content, m'.content with
  | .str s, .str s' => s = s'
  | .blocks bs, .blocks bs' => List.Forall₂ OnlyImagesRemovedBlock bs bs'
  | _, _ => False

/-! ## Concrete scenarios -/

/-- A tool that always succeeds with one screenshot image (and nothing
else). -/
def camTool : Tool :=
  ⟨"cam", fun _ => .ok ⟨none, none, some "x", none, none⟩⟩

/-- A tool that echoes a fixed output. -/
def echoTool : Tool :=
  ⟨"echo", fun _ => .ok ⟨some "hi", none, none, none, none⟩⟩

/-- A tool that throws a `ToolError` whose message is empty. -/
def boomTool : Tool :=
  ⟨"boom", fun _ => .toolError ""⟩

/-- A tool that throws a non-`ToolError` exception. -/
def crashTool : Tool :=
  ⟨"crash", fun _ => .otherError "ENOENT"⟩

def demoCollection : ToolCollection :=
  ToolCollection.ofTools [camTool, echoTool, boomTool, crashTool]

/-- The caller's first user message. -/
def initMsg : Message := ⟨.user, .str "hello"⟩

/-- Scenario C of the spec: one conversation holding 25 images inside a
single `tool_result`. -/
def conv25 : List Message :=
  [⟨.user, .str "go"⟩,
   ⟨.user, .blocks [.toolResult "t0" (List.replicate 25 (.image "image/png" "x")) false]⟩]

/-- A first response carrying 12 `tool_use` requests for the camera tool. -/
def response12 : List Block :=
  (List.range 12).map fun i => Block.toolUse (toString i) "cam" []

/-- A closing response with no `tool_use` block. -/
def responseDone : List Block := [.text "done"]

/-! ## Lemmas about the removal walk -/

theorem removeImagesTR_zero (c : List TRContent) : removeImagesTR 0 c = (0, c) := by
  induction c with
  | nil => rfl
  | cons item rest ih => cases item <;> simp [removeImagesTR, ih]

theorem imageSeqTR_cons_image (m d : String) (c : List TRContent) :
    imageSeqTR (.image m d :: c) = .image m d :: imageSeqTR c := by
  simp [imageSeqTR, isImageItem]

theorem imageSeqTR_cons_text (t : String) (c : List TRContent) :
    imageSeqTR (.text t :: c) = imageSeqTR c := by
  simp [imageSeqTR, isImageItem]

theorem removeImagesTR_spec (k : Nat) (c : List TRContent) :
    (removeImagesTR k c).1 = k - (imageSeqTR c).length ∧
    imageSeqTR (removeImagesTR k c).2 = (imageSeqTR c).drop k := by
  induction c generalizing k with
  | nil => simp [removeImagesTR, imageSeqTR]
  | cons item rest ih =>
    cases item with
    | image m d =>
      rcases Nat.eq_zero_or_pos k with hk | hk
      · subst hk
        simp [removeImagesTR_zero, imageSeqTR]
      · obtain ⟨ih1, ih2⟩ := ih (k - 1)
        have hrw : removeImagesTR k (.image m d :: rest) = removeImagesTR (k - 1) rest := by
          simp [removeImagesTR, hk]
        rw [hrw, imageSeqTR_cons_image]
        constructor
        · rw [ih1, List.length_cons]; omega
        · rw [ih2]
          obtain ⟨k', rfl⟩ : ∃ k', k = k' + 1 := ⟨k - 1, by omega⟩
          simp
    | text t =>
      obtain ⟨ih1, ih2⟩ := ih k
      rw [imageSeqTR_cons_text]
      constructor
      · simpa [removeImagesTR] using ih1
      · simpa [removeImagesTR] using ih2

theorem removeImagesBlock_spec (k : Nat) (b : Block) :
    (removeImagesBlock k b).1 = k - (imageSeqBlock b).length ∧
    imageSeqBlock (removeImagesBlock k b).2 = (imageSeqBlock b).drop k := by
  cases b with
  | toolResult id c e =>
    obtain ⟨h1, h2⟩ := removeImagesTR_spec k c
    exact ⟨by simpa [removeImagesBlock, imageSeqBlock] using h1,
           by simpa [removeImagesBlock, imageSeqBlock] using h2⟩
  | text t => simp [removeImagesBlock, imageSeqBlock]
  | toolUse id n i => simp [removeImagesBlock, imageSeqBlock]

/-- The image occurrences of a content array of blocks, in order. -/
def imageSeqBlocks (bs : List Block) : List TRContent :=
  bs.flatMap imageSeqBlock

theorem removeImagesBlocks_spec (k : Nat) (bs : List Block) :
    (removeImagesBlocks k bs).1 = k - (imageSeqBlocks bs).length ∧
    imageSeqBlocks (removeImagesBlocks k bs).2 = (imageSeqBlocks bs).drop k := by
  induction bs generalizing k with
  | nil => simp [removeImagesBlocks, imageSeqBlocks]
  | cons b rest ih =>
    obtain ⟨hb1, hb2⟩ := removeImagesBlock_spec k b
    obtain ⟨ih1, ih2⟩ := ih (k - (imageSeqBlock b).length)
    have hrw : removeImagesBlocks k (b :: rest) =
        ((removeImagesBlocks (removeImagesBlock k b).1 rest).1,
         (removeImagesBlock k b).2 :: (removeImagesBlocks (removeImagesBlock k b).1 rest).2) := by
      simp [removeImagesBlocks]
    have hlen : (imageSeqBlocks (b :: rest)).length =
        (imageSeqBlock b).length + (imageSeqBlocks rest).length := by
      simp [imageSeqBlocks]
    rw [hrw]
    constructor
    · rw [hb1, ih1, hlen]; omega
    · have hcons : imageSeqBlocks ((removeImagesBlock k b).2 :: (removeImagesBlocks (removeImagesBlock k b).1 rest).2) =
          imageSeqBlock (removeImagesBlock k b).2 ++
          imageSeqBlocks (removeImagesBlocks (removeImagesBlock k b).1 rest).2 := by
        simp [imageSeqBlocks]
      rw [hcons, hb2, hb1, ih2]
      have : imageSeqBlocks (b :: rest) = imageSeqBlock b ++ imageSeqBlocks rest := by
        simp [imageSeqBlocks]
      rw [this, List.drop_append_eq_append_drop]

/-- The image occurrences of one message, in order. -/
def imageSeqMsg (m : Message) : List TRContent :=
  (msgBlocks m).flatMap imageSeqBlock

theorem removeImagesMsg_spec (k : Nat) (m : Message) :
    (removeImagesMsg k m).1 = k - (imageSeqMsg m).length ∧
    imageSeqMsg (removeImagesMsg k m).2 = (imageSeqMsg m).drop k := by
  cases m with
  | mk role content =>
    cases content with
    | str s => simp [removeImagesMsg, imageSeqMsg, msgBlocks]
    | blocks bs =>
      obtain ⟨h1, h2⟩ := removeImagesBlocks_spec k bs
      exact ⟨by simpa [removeImagesMsg, imageSeqMsg, msgBlocks, imageSeqBlocks] using h1,
             by simpa [removeImagesMsg, imageSeqMsg, msgBlocks, imageSeqBlocks] using h2⟩

theorem imageSeq_cons (m : Message) (rest : List Message) :
    imageSeq (m :: rest) = imageSeqMsg m ++ imageSeq rest := by
  unfold imageSeq imageSeqMsg
  rw [List.flatMap_cons, List.flatMap_append]

theorem imageSeq_eq_flatMap (messages : List Message) :
    imageSeq messages = messages.flatMap imageSeqMsg := by
  induction messages with
  | nil => rfl
  | cons m rest ih => rw [imageSeq_cons, ih, List.flatMap_cons]

theorem removeImagesMsgs_spec (k : Nat) (messages : List Message) :
    (removeImagesMsgs k messages).1 = k - (imageSeq messages).length ∧
    imageSeq (removeImagesMsgs k messages).2 = (imageSeq messages).drop k := by
  induction messages generalizing k with
  | nil => simp [removeImagesMsgs, imageSeq]
  | cons m rest ih =>
    obtain ⟨hm1, hm2⟩ := removeImagesMsg_spec k m
    obtain ⟨ih1, ih2⟩ := ih (k - (imageSeqMsg m).length)
    have hrw : removeImagesMsgs k (m :: rest) =
        ((removeImagesMsgs (removeImagesMsg k m).1 rest).1,
         (removeImagesMsg k m).2 :: (removeImagesMsgs (removeImagesMsg k m).1 rest).2) := by
      simp [removeImagesMsgs]
    have hlen : (imageSeq (m :: rest)).length = (imageSeqMsg m).length + (imageSeq rest).length := by
      simp [imageSeq_eq_flatMap]
    rw [hrw]
    constructor
    · rw [hm1, ih1, hlen]; omega
    · have hcons : imageSeq ((removeImagesMsg k m).2 :: (removeImagesMsgs (removeImagesMsg k m).1 rest).2) =
          imageSeqMsg (removeImagesMsg k m).2 ++
          imageSeq (removeImagesMsgs (removeImagesMsg k m).1 rest).2 := by
        simp [imageSeq_eq_flatMap]
      rw [hcons, hm2, hm1, ih2]
      have : imageSeq (m :: rest) = imageSeqMsg m ++ imageSeq rest := by
        simp [imageSeq_eq_flatMap]
      rw [this, List.drop_append_eq_append_drop]

theorem totalImagesIn_eq_length (messages : List Message) :
    totalImagesIn messages = (imageSeq messages).length := by
  have hfold : ∀ (l : List Block) (n : Nat),
      l.foldl (fun count b =>
        match b with
        | .toolResult _ c _ => count + countImagesTR c
        | _ => count) n = n + (l.flatMap imageSeqBlock).length := by
    intro l
    induction l with
    | nil => intro n; simp
    | cons b rest ih =>
      intro n
      cases b with
      | toolResult id c e =>
        simp only [List.foldl_cons, ih, List.flatMap_cons, List.length_append]
        have : (imageSeqBlock (Block.toolResult id c e)).length = countImagesTR c := by
          simp [imageSeqBlock, imageSeqTR, countImagesTR]
        omega
      | text t => simp [List.foldl_cons, ih, imageSeqBlock]
      | toolUse id nm i => simp [List.foldl_cons, ih, imageSeqBlock]
  have hfilter : ∀ l : List Block,
      (l.filter isToolResultBlock).flatMap imageSeqBlock = l.flatMap imageSeqBlock := by
    intro l
    induction l with
    | nil => rfl
    | cons b rest ih => cases b <;> simp [List.filter_cons, isToolResultBlock, ih, imageSeqBlock]
  unfold totalImagesIn toolResultBlocksOf
  rw [hfold, hfilter]
  simp [imageSeq]

/-! ## Lemmas about the rounding arithmetic -/

/-- For a non-positive dividend the truncated remainder is at least the
dividend itself. -/
theorem tmod_self_le {e b : Int} (he : e ≤ 0) (hb : 0 ≤ b) : e ≤ Int.tmod e b := by
  have htdiv : e.tdiv b ≤ 0 := by
    have h1 : (0 : Int) ≤ (-e).tdiv b := Int.tdiv_nonneg (by omega) hb
    have h2 : (-e).tdiv b = -(e.tdiv b) := Int.neg_tdiv e b
    omega
  have hmul : b * e.tdiv b ≤ 0 := mul_nonpos_of_nonneg_of_nonpos hb htdiv
  have hdef : Int.tmod e b = e - b * e.tdiv b := Int.tmod_def e b
  omega

/-- The two branches of `filterNMostRecentImages`, with the rounding already
carried out in `Nat`: below `imagesToKeep + minRemovalThreshold` total
images nothing happens, at or above it the walk removes the excess rounded
down to a multiple of the threshold. -/
theorem trim_cases (messages : List Message) (K b : Nat) (hb : 1 ≤ b) :
    (totalImagesIn messages < K + b ∧ filterNMostRecentImages messages K b = messages) ∨
    (K + b ≤ totalImagesIn messages ∧
      filterNMostRecentImages messages K b =
        (removeImagesMsgs ((totalImagesIn messages - K) - (totalImagesIn messages - K) % b)
          messages).2) := by
  set T := totalImagesIn messages with hT
  rcases Nat.lt_or_ge T (K + b) with h | h
  · left
    refine ⟨h, ?_⟩
    have hcond : (T : Int) - K - Int.tmod ((T : Int) - K) b ≤ 0 := by
      rcases Int.le_or_lt ((T : Int) - K) 0 with he | he
      · have := tmod_self_le he (by positivity : (0 : Int) ≤ b)
        omega
      · have hlt : (T : Int) - K < b := by
          have : (T : Int) < (K : Int) + b := by exact_mod_cast h
          omega
        rw [Int.tmod_eq_of_lt (Int.le_of_lt he) hlt]
        omega
    unfold filterNMostRecentImages
    rw [← hT, if_pos hcond]
  · right
    refine ⟨h, ?_⟩
    have hKT : K ≤ T := by omega
    have hcast : (T : Int) - K = ((T - K : Nat) : Int) := by
      omega
    have htmod : Int.tmod ((T : Int) - K) b = (((T - K) % b : Nat) : Int) := by
      rw [hcast, ← Int.ofNat_tmod]
    have hval : (T : Int) - K - Int.tmod ((T : Int) - K) b =
        (((T - K) - (T - K) % b : Nat) : Int) := by
      rw [htmod, hcast]
      have : (T - K) % b ≤ T - K := Nat.mod_le _ _
      omega
    have hpos : ¬ ((T : Int) - K - Int.tmod ((T : Int) - K) b ≤ 0) := by
      rw [hval]
      have hmodlt : (T - K) % b < b := Nat.mod_lt _ (by omega)
      have : b ≤ T - K := by omega
      omega
    unfold filterNMostRecentImages
    rw [← hT, if_neg hpos, hval, Int.toNat_ofNat]

/-- The image count after one trim: untouched below `K + b`, else cut to
`K` plus the remainder of the excess. -/
theorem trim_count (messages : List Message) (K b : Nat) (hb : 1 ≤ b) :
    totalImagesIn (filterNMostRecentImages messages K b) =
      if totalImagesIn messages < K + b then totalImagesIn messages
      else K + (totalImagesIn messages - K) % b := by
  rcases trim_cases messages K b hb with ⟨h, heq⟩ | ⟨h, heq⟩
  · rw [heq, if_pos h]
  · rw [heq, if_neg (by omega)]
    obtain ⟨-, h2⟩ := removeImagesMsgs_spec
      ((totalImagesIn messages - K) - (totalImagesIn messages - K) % b) messages
    rw [totalImagesIn_eq_length, h2, List.length_drop, ← totalImagesIn_eq_length]
    have hmodlt : (totalImagesIn messages - K) % b < b := Nat.mod_lt _ (by omega)
    have hle : (totalImagesIn messages - K) % b ≤ totalImagesIn messages - K := Nat.mod_le _ _
    omega

/-! ## Lemmas about what the removal walk preserves -/

theorem onlyImagesRemovedTR_self (c : List TRContent) : OnlyImagesRemovedTR c c := by
  induction c with
  | nil => exact .nil
  | cons item rest ih => exact .keep item ih

theorem removeImagesTR_onlyImages (k : Nat) (c : List TRContent) :
    OnlyImagesRemovedTR c (removeImagesTR k c).2 := by
  induction c generalizing k with
  | nil => exact .nil
  | cons item rest ih =>
    cases item with
    | image m d =>
      rcases Nat.eq_zero_or_pos k with hk | hk
      · subst hk
        rw [removeImagesTR_zero]
        exact onlyImagesRemovedTR_self _
      · have hrw : removeImagesTR k (.image m d :: rest) = removeImagesTR (k - 1) rest := by
          simp [removeImagesTR, hk]
        rw [hrw]
        exact .dropImage m d (ih (k - 1))
    | text t =>
      have hrw : (removeImagesTR k (.text t :: rest)).2 = .text t :: (removeImagesTR k rest).2 := by
        simp [removeImagesTR]
      rw [hrw]
      exact .keep _ (ih k)

theorem onlyImagesRemovedBlock_self (b : Block) : OnlyImagesRemovedBlock b b := by
  cases b with
  | toolResult id c e => exact ⟨rfl, rfl, onlyImagesRemovedTR_self c⟩
  | text t => exact rfl
  | toolUse id n i => exact rfl

theorem removeImagesBlock_onlyImages (k : Nat) (b : Block) :
    OnlyImagesRemovedBlock b (removeImagesBlock k b).2 := by
  cases b with
  | toolResult id c e =>
    have : (removeImagesBlock k (.toolResult id c e)).2 =
        .toolResult id (removeImagesTR k c).2 e := by
      simp [removeImagesBlock]
    rw [this]
    exact ⟨rfl, rfl, removeImagesTR_onlyImages k c⟩
  | text t => exact onlyImagesRemovedBlock_self _
  | toolUse id n i => exact onlyImagesRemovedBlock_self _

theorem onlyImagesRemovedMsg_self (m : Message) : OnlyImagesRemovedMsg m m := by
  cases m with
  | mk role content =>
    cases content with
    | str s => exact ⟨rfl, rfl⟩
    | blocks bs =>
      refine ⟨rfl, ?_⟩
      show List.Forall₂ OnlyImagesRemovedBlock bs bs
      exact List.forall₂_same.2 fun b _ => onlyImagesRemovedBlock_self b

theorem removeImagesMsg_onlyImages (k : Nat) (m : Message) :
    OnlyImagesRemovedMsg m (removeImagesMsg k m).2 := by
  cases m with
  | mk role content =>
    cases content with
    | str s => exact onlyImagesRemovedMsg_self _
    | blocks bs =>
      have : (removeImagesMsg k ⟨role, .blocks bs⟩).2 =
          ⟨role, .blocks (removeImagesBlocks k bs).2⟩ := by
        simp [removeImagesMsg]
      rw [this]
      refine ⟨rfl, ?_⟩
      show List.Forall₂ OnlyImagesRemovedBlock bs (removeImagesBlocks k bs).2
      clear this
      induction bs generalizing k with
      | nil => exact .nil
      | cons b rest ih =>
        have : (removeImagesBlocks k (b :: rest)).2 =
            (removeImagesBlock k b).2 :: (removeImagesBlocks (removeImagesBlock k b).1 rest).2 := by
          simp [removeImagesBlocks]
        rw [this]
        exact .cons (removeImagesBlock_onlyImages k b) (ih _)

theorem removeImagesMsgs_onlyImages (k : Nat) (messages : List Message) :
    List.Forall₂ OnlyImagesRemovedMsg messages (removeImagesMsgs k messages).2 := by
  induction messages generalizing k with
  | nil => exact .nil
  | cons m rest ih =>
    have : (removeImagesMsgs k (m :: rest)).2 =
        (removeImagesMsg k m).2 :: (removeImagesMsgs (removeImagesMsg k m).1 rest).2 := by
      simp [removeImagesMsgs]
    rw [this]
    exact .cons (removeImagesMsg_onlyImages k m) (ih _)

theorem filter_onlyImages (messages : List Message) (K b : Nat) :
    List.Forall₂ OnlyImagesRemovedMsg messages (filterNMostRecentImages messages K b) := by
  simp only [filterNMostRecentImages]
  split
  · exact List.forall₂_same.2 fun m _ => onlyImagesRemovedMsg_self m
  · exact removeImagesMsgs_onlyImages _ messages

/-! ## Lemmas about the loop -/

/-- Whatever the dispatch produced, the assembled block is a `tool_result`
tagged with the originating `tool_use` id. -/
theorem makeApiToolResult_shape (r : ToolResult) (id : String) :
    ∃ c e, makeApiToolResult r id = .toolResult id c e := by
  unfold makeApiToolResult
  split
  · exact ⟨_, _, rfl⟩
  · exact ⟨_, _, rfl⟩

/-- The dispatched results carry exactly the `tool_use` ids of the response,
in response order. -/
theorem resultIds_toolUseResults (tc : ToolCollection) (content : List Block) :
    resultIds (toolUseResults tc content) = requestIds content := by
  induction content with
  | nil => rfl
  | cons b rest ih =>
    cases b with
    | toolUse id n i =>
      obtain ⟨c, e, hshape⟩ := makeApiToolResult_shape (ToolCollection.run tc n i) id
      simp only [toolUseResults, requestIds, resultIds, List.filterMap_cons] at *
      simp [hshape, ih]
    | text t =>
      simp only [toolUseResults, requestIds, resultIds, List.filterMap_cons] at *
      simpa using ih
    | toolResult id c e =>
      simp only [toolUseResults, requestIds, resultIds, List.filterMap_cons] at *
      simpa using ih

/-- One result per `tool_use` block and none otherwise, so the dispatch
produces an empty batch exactly when the response holds no `tool_use`. -/
theorem toolUseResults_eq_nil_iff (tc : ToolCollection) (content : List Block) :
    toolUseResults tc content = [] ↔ hasToolUse content = false := by
  induction content with
  | nil => simp [toolUseResults, hasToolUse]
  | cons b rest ih =>
    cases b with
    | toolUse id n i => simp [toolUseResults, hasToolUse, List.filterMap_cons]
    | text t =>
      simp only [toolUseResults, hasToolUse, List.filterMap_cons] at *
      simpa using ih
    | toolResult id c e =>
      simp only [toolUseResults, hasToolUse, List.filterMap_cons] at *
      simpa using ih

/-- A terminating `runAux` only appends: the result is the input conversation
followed by a well-formed suffix of loop turns. -/
theorem runAux_suffix (tc : ToolCollection) (responses : List (List Block))
    (messages out : List Message)
    (h : SamplingLoop.runAux tc responses messages = some out) :
    ∃ s, out = messages ++ s ∧ LoopSuffix tc s := by
  induction responses generalizing messages with
  | nil => exact absurd h (by simp [SamplingLoop.runAux])
  | cons response rest ih =>
    by_cases hemp : (toolUseResults tc response).isEmpty
    · have hnil : toolUseResults tc response = [] := List.isEmpty_iff.mp hemp
      have hout : out = messages ++ [⟨.assistant, .blocks response⟩] := by
        simp only [SamplingLoop.runAux, hemp, if_pos] at h
        exact (Option.some_inj.mp h).symm
      exact ⟨[⟨.assistant, .blocks response⟩], hout, .last response hnil⟩
    · have hnil : toolUseResults tc response ≠ [] := by
        simpa [List.isEmpty_iff] using hemp
      have hrec : SamplingLoop.runAux tc rest
          ((messages ++ [⟨.assistant, .blocks response⟩]) ++
           [⟨.user, .blocks (toolUseResults tc response)⟩]) = some out := by
        simpa [SamplingLoop.runAux, hemp] using h
      obtain ⟨s', hout, hsuf⟩ := ih _ hrec
      refine ⟨⟨.assistant, .blocks response⟩ ::
              ⟨.user, .blocks (toolUseResults tc response)⟩ :: s', ?_, ?_⟩
      · rw [hout]; simp
      · exact .step response s' hnil hsuf

/-- `runAux` terminates exactly when some supplied response carries no
`tool_use` block. -/
theorem runAux_isSome_iff (tc : ToolCollection) (responses : List (List Block))
    (messages : List Message) :
    (SamplingLoop.runAux tc responses messages).isSome = true ↔
      ∃ r ∈ responses, hasToolUse r = false := by
  induction responses generalizing messages with
  | nil => simp [SamplingLoop.runAux]
  | cons response rest ih =>
    by_cases hemp : (toolUseResults tc response).isEmpty
    · have hfalse : hasToolUse response = false :=
        (toolUseResults_eq_nil_iff tc response).mp (List.isEmpty_iff.mp hemp)
      simp only [SamplingLoop.runAux, hemp, if_pos]
      simp [hfalse]
    · have htrue : hasToolUse response = true := by
        rcases Bool.eq_false_or_eq_true (hasToolUse response) with ht | hf
        · exact ht
        · exact absurd ((toolUseResults_eq_nil_iff tc response).mpr hf)
            (by simpa [List.isEmpty_iff] using hemp)
      have hval : SamplingLoop.runAux tc (response :: rest) messages =
          SamplingLoop.runAux tc rest
            (messages ++ [⟨.assistant, .blocks response⟩] ++
             [⟨.user, .blocks (toolUseResults tc response)⟩]) := by
        simp [SamplingLoop.runAux, hemp]
      rw [hval, ih]
      constructor
      · rintro ⟨r, hr, hfr⟩
        exact ⟨r, List.mem_cons_of_mem _ hr, hfr⟩
      · rintro ⟨r, hr, hfr⟩
        rcases List.mem_cons.mp hr with rfl | hr
        · rw [htrue] at hfr; cases hfr
        · exact ⟨r, hr, hfr⟩

/-! ## Small helpers for the claim statements -/

theorem strTruthy_some {s : String} (h : s ≠ "") : strTruthy (some s) = true := by
  simp [strTruthy, h]

/-- At or above `K + b` total images the rounded excess is positive. -/
theorem rounded_pos_of_ge {T K b : Nat} (hb : 1 ≤ b) (h : K + b ≤ T) :
    ¬ ((T : Int) - K - Int.tmod ((T : Int) - K) b ≤ 0) := by
  have hcast : (T : Int) - K = ((T - K : Nat) : Int) := by omega
  have htmod : Int.tmod ((T : Int) - K) b = (((T - K) % b : Nat) : Int) := by
    rw [hcast, ← Int.ofNat_tmod]
  have hmodlt : (T - K) % b < b := Nat.mod_lt _ (by omega)
  have hble : b ≤ T - K := by omega
  rw [htmod]
  omega

theorem prefixed_ne_empty (s t : String) (hs : s.length ≠ 0) : s ++ t ≠ "" := by
  intro heq
  have hlen := congrArg String.length heq
  rw [String.length_append] at hlen
  simp at hlen
  omega

/-! ## The claims -/

/-- C5: one application of the trimmer removes a number of images that is a
non-negative multiple of `minRemovalThreshold` and at most the excess over
`imagesToKeep`; when the rounded excess is non-positive nothing is
removed. -/
theorem trimmer_removal_bound (messages : List Message) (K b : Nat) (hb : 1 ≤ b) :
    totalImagesIn (filterNMostRecentImages messages K b) ≤ totalImagesIn messages ∧
    b ∣ (totalImagesIn messages - totalImagesIn (filterNMostRecentImages messages K b)) ∧
    totalImagesIn messages - totalImagesIn (filterNMostRecentImages messages K b) ≤
      totalImagesIn messages - K ∧
    ((totalImagesIn messages : Int) - K -
        Int.tmod ((totalImagesIn messages : Int) - K) b ≤ 0 →
      filterNMostRecentImages messages K b = messages) := by
  have hcount := trim_count messages K b hb
  have hnoop : (totalImagesIn messages : Int) - K -
      Int.tmod ((totalImagesIn messages : Int) - K) b ≤ 0 →
      filterNMostRecentImages messages K b = messages := by
    intro hneg
    rcases trim_cases messages K b hb with ⟨-, heq⟩ | ⟨hge, -⟩
    · exact heq
    · exact absurd hneg (rounded_pos_of_ge hb hge)
  by_cases hlt : totalImagesIn messages < K + b
  · rw [if_pos hlt] at hcount
    exact ⟨le_of_eq hcount, by rw [hcount]; simp, by omega, hnoop⟩
  · rw [if_neg hlt] at hcount
    have hmodlt : (totalImagesIn messages - K) % b < b := Nat.mod_lt _ (by omega)
    have hmodle : (totalImagesIn messages - K) % b ≤ totalImagesIn messages - K :=
      Nat.mod_le _ _
    refine ⟨by omega, ?_, by omega, hnoop⟩
    refine ⟨(totalImagesIn messages - K) / b, ?_⟩
    have := Nat.div_add_mod (totalImagesIn messages - K) b
    omega

/-- C5, instantiated at Scenario C of the spec: 25 images with `keep = 10`
and `minRemovalBatch = 10` leave 15 images, and the removal obeys the
bound. -/
theorem trimmer_removal_bound_witness :
    totalImagesIn (filterNMostRecentImages conv25 10 10) = 15 ∧
    (totalImagesIn (filterNMostRecentImages conv25 10 10) ≤ totalImagesIn conv25 ∧
     10 ∣ (totalImagesIn conv25 - totalImagesIn (filterNMostRecentImages conv25 10 10)) ∧
     totalImagesIn conv25 - totalImagesIn (filterNMostRecentImages conv25 10 10) ≤
       totalImagesIn conv25 - 10 ∧
     ((totalImagesIn conv25 : Int) - 10 -
         Int.tmod ((totalImagesIn conv25 : Int) - 10) 10 ≤ 0 →
       filterNMostRecentImages conv25 10 10 = conv25)) :=
  ⟨by decide, trimmer_removal_bound conv25 10 10 (by decide)⟩

/-- C6: the trimmer is idempotent, removes the oldest image occurrences
first (the surviving image sequence is a suffix of the original), and the
post-trim count stays within `[min keep prior, keep + (batch - 1)]`. -/
theorem trimmer_idempotent (messages : List Message) (K b : Nat) (hb : 1 ≤ b) :
    filterNMostRecentImages (filterNMostRecentImages messages K b) K b =
      filterNMostRecentImages messages K b ∧
    imageSeq (filterNMostRecentImages messages K b) =
      (imageSeq messages).drop
        (totalImagesIn messages - totalImagesIn (filterNMostRecentImages messages K b)) ∧
    totalImagesIn (filterNMostRecentImages messages K b) ≤ K + (b - 1) ∧
    min K (totalImagesIn messages) ≤ totalImagesIn (filterNMostRecentImages messages K b) := by
  have hcount := trim_count messages K b hb
  have hmodlt : (totalImagesIn messages - K) % b < b := Nat.mod_lt _ (by omega)
  have hbound : totalImagesIn (filterNMostRecentImages messages K b) ≤ K + (b - 1) := by
    by_cases hlt : totalImagesIn messages < K + b
    · rw [if_pos hlt] at hcount; omega
    · rw [if_neg hlt] at hcount; omega
  refine ⟨?_, ?_, hbound, ?_⟩
  · rcases trim_cases (filterNMostRecentImages messages K b) K b hb with ⟨-, heq⟩ | ⟨hge, -⟩
    · exact heq
    · omega
  · rcases trim_cases messages K b hb with ⟨-, heq⟩ | ⟨hge, heq⟩
    · rw [heq]
      simp
    · have hmodle : (totalImagesIn messages - K) % b ≤ totalImagesIn messages - K :=
        Nat.mod_le _ _
      obtain ⟨-, hseq⟩ := removeImagesMsgs_spec
        ((totalImagesIn messages - K) - (totalImagesIn messages - K) % b) messages
      have hlen : totalImagesIn (removeImagesMsgs
          ((totalImagesIn messages - K) - (totalImagesIn messages - K) % b) messages).2 =
          totalImagesIn messages -
            ((totalImagesIn messages - K) - (totalImagesIn messages - K) % b) := by
        rw [totalImagesIn_eq_length, hseq, List.length_drop, ← totalImagesIn_eq_length]
      rw [heq, hseq, hlen]
      congr 1
      omega
  · by_cases hlt : totalImagesIn messages < K + b
    · rw [if_pos hlt] at hcount; omega
    · rw [if_neg hlt] at hcount; omega

/-- C6, instantiated: trimming the 25-image conversation twice equals
trimming it once, oldest images go first, and the bounds hold. -/
theorem trimmer_idempotent_witness :
    filterNMostRecentImages (filterNMostRecentImages conv25 10 10) 10 10 =
      filterNMostRecentImages conv25 10 10 ∧
    imageSeq (filterNMostRecentImages conv25 10 10) =
      (imageSeq conv25).drop
        (totalImagesIn conv25 - totalImagesIn (filterNMostRecentImages conv25 10 10)) ∧
    totalImagesIn (filterNMostRecentImages conv25 10 10) ≤ 10 + (10 - 1) ∧
    min 10 (totalImagesIn conv25) ≤ totalImagesIn (filterNMostRecentImages conv25 10 10) :=
  trimmer_idempotent conv25 10 10 (by decide)

/-- C7: the assembler maps an error result to a single `Text` block with
`is_error = true`; otherwise `is_error = false` and the content is the
optional output `Text` followed by the optional `Image`, so both present
give `[Text, Image]` and an empty result gives empty content. -/
theorem assembler_content (r : ToolResult) (tid : String) :
    (∀ e, r.error = some e → e ≠ "" →
      makeApiToolResult r tid =
        .toolResult tid [.text (maybePrependSystemToolResult r e)] true) ∧
    (∀ o img, strTruthy r.error = false → r.output = some o → o ≠ "" →
      r.base64Image = some img → img ≠ "" →
      makeApiToolResult r tid =
        .toolResult tid
          [.text (maybePrependSystemToolResult r o),
           .image (if strTruthy r.mediaType then r.mediaType.getD "" else "image/png") img]
          false) ∧
    (∀ o, strTruthy r.error = false → r.output = some o → o ≠ "" →
      strTruthy r.base64Image = false →
      makeApiToolResult r tid =
        .toolResult tid [.text (maybePrependSystemToolResult r o)] false) ∧
    (∀ img, strTruthy r.error = false → strTruthy r.output = false →
      r.base64Image = some img → img ≠ "" →
      makeApiToolResult r tid =
        .toolResult tid
          [.image (if strTruthy r.mediaType then r.mediaType.getD "" else "image/png") img]
          false) ∧
    (strTruthy r.error = false → strTruthy r.output = false →
      strTruthy r.base64Image = false →
      makeApiToolResult r tid = .toolResult tid [] false) := by
  refine ⟨?_, ?_, ?_, ?_, ?_⟩
  · intro e herr hne
    simp [makeApiToolResult, herr, strTruthy_some hne]
  · intro o img herr hout hone himg hine
    simp [makeApiToolResult, herr, hout, himg, strTruthy_some hone, strTruthy_some hine]
  · intro o herr hout hone hnoimg
    simp [makeApiToolResult, herr, hout, hnoimg, strTruthy_some hone]
  · intro img herr hnoout himg hine
    simp [makeApiToolResult, herr, hnoout, himg, strTruthy_some hine]
  · intro herr hnoout hnoimg
    simp [makeApiToolResult, herr, hnoout, hnoimg]

/-- C7, instantiated: a result with both output and image assembles to
`[Text, Image]` in that order. -/
theorem assembler_content_witness :
    makeApiToolResult ⟨some "ok", none, some "img", none, none⟩ "t2" =
      .toolResult "t2" [.text "ok", .image "image/png" "img"] false :=
  (assembler_content ⟨some "ok", none, some "img", none, none⟩ "t2").2.1
    "ok" "img" rfl rfl (by decide) rfl (by decide)

/-- C10: a set system note wraps the text as
`"<system>" ++ note ++ "</system>\n" ++ text`, in the error case on the
error text and otherwise on the output text only; no note leaves the text
unchanged, and the image block's data is never prefixed. -/
theorem system_note_format (r : ToolResult) (text tid : String) :
    (∀ s, r.system = some s → s ≠ "" →
      maybePrependSystemToolResult r text = "<system>" ++ s ++ "</system>\n" ++ text) ∧
    (strTruthy r.system = false → maybePrependSystemToolResult r text = text) ∧
    (∀ e s, r.error = some e → e ≠ "" → r.system = some s → s ≠ "" →
      makeApiToolResult r tid =
        .toolResult tid [.text ("<system>" ++ s ++ "</system>\n" ++ e)] true) ∧
    (∀ o s, strTruthy r.error = false → r.output = some o → o ≠ "" →
      r.system = some s → s ≠ "" →
      makeApiToolResult r tid =
        .toolResult tid
          (TRContent.text ("<system>" ++ s ++ "</system>\n" ++ o) ::
           (if strTruthy r.base64Image then
              [TRContent.image
                (if strTruthy r.mediaType then r.mediaType.getD "" else "image/png")
                (r.base64Image.getD "")]
            else []))
          false) := by
  refine ⟨?_, ?_, ?_, ?_⟩
  · intro s hsys hne
    simp [maybePrependSystemToolResult, hsys, strTruthy_some hne]
  · intro hf
    simp [maybePrependSystemToolResult, hf]
  · intro e s herr hene hsys hsne
    simp [makeApiToolResult, herr, strTruthy_some hene,
          maybePrependSystemToolResult, hsys, strTruthy_some hsne]
  · intro o s herr hout hone hsys hsne
    by_cases himg : strTruthy r.base64Image
    · simp [makeApiToolResult, herr, hout, himg, strTruthy_some hone,
            maybePrependSystemToolResult, hsys, strTruthy_some hsne]
    · simp [makeApiToolResult, herr, hout, himg, strTruthy_some hone,
            maybePrependSystemToolResult, hsys, strTruthy_some hsne]

/-- C10, instantiated: a system note on an output result yields the wrapped
text and the image data stays verbatim. -/
theorem system_note_format_witness :
    makeApiToolResult ⟨some "out", none, some "img", some "note", none⟩ "t3" =
      .toolResult "t3"
        (TRContent.text "<system>note</system>\nout" ::
         [TRContent.image "image/png" "img"])
        false :=
  (system_note_format ⟨some "out", none, some "img", some "note", none⟩ "x" "t3").2.2.2
    "out" "note" rfl rfl (by decide) rfl (by decide)

/-- C2 fails as stated: dispatching the unregistered name `"missing"` gives
the error text `"Tool missing is invalid"`, not `"missing is invalid"`. -/
theorem unknown_tool_text_counterexample :
    ToolCollection.run demoCollection "missing" [] =
      ToolFailure "Tool missing is invalid" ∧
    (ToolCollection.run demoCollection "missing" []).error ≠ some "missing is invalid" := by
  decide

/-- C2 amended: dispatching any unregistered name returns (never throws) a
failure result whose error text is exactly `"Tool " ++ name ++ " is
invalid"`, and it assembles to a `tool_result` with `is_error = true` and
that text. -/
theorem unknown_tool_failure (tc : ToolCollection) (name tid : String)
    (input : List (String × String)) (h : mapGet tc.toolMap name = none) :
    ToolCollection.run tc name input = ToolFailure ("Tool " ++ name ++ " is invalid") ∧
    makeApiToolResult (ToolCollection.run tc name input) tid =
      .toolResult tid [.text ("Tool " ++ name ++ " is invalid")] true := by
  have hrun : ToolCollection.run tc name input =
      ToolFailure ("Tool " ++ name ++ " is invalid") := by
    unfold ToolCollection.run
    rw [h]
  have hne : ("Tool " ++ name ++ " is invalid") ≠ "" := by
    refine prefixed_ne_empty ("Tool " ++ name) " is invalid" ?_
    rw [String.length_append]
    have h5 : "Tool ".length = 5 := rfl
    omega
  refine ⟨hrun, ?_⟩
  rw [hrun]
  simp [makeApiToolResult, ToolFailure, maybePrependSystemToolResult, strTruthy, hne]

/-- C2 amended, instantiated at `"missing"`. -/
theorem unknown_tool_failure_witness :
    ToolCollection.run demoCollection "missing" [] =
      ToolFailure ("Tool " ++ "missing" ++ " is invalid") ∧
    makeApiToolResult (ToolCollection.run demoCollection "missing" []) "t4" =
      .toolResult "t4" [.text ("Tool " ++ "missing" ++ " is invalid")] true :=
  unknown_tool_failure demoCollection "missing" "t4" [] rfl

/-- C8 fails as stated: the tool `"boom"` throws a `ToolError` with an empty
message; the dispatch converts it without throwing, but the assembled
`tool_result` has `is_error = false` (the truthiness test on the empty
error string fails), not `true` as the claim requires for every
exception. -/
theorem effector_exception_counterexample :
    ToolCollection.run demoCollection "boom" [] = ToolFailure "" ∧
    makeApiToolResult (ToolCollection.run demoCollection "boom" []) "id9" =
      .toolResult "id9" [] false := by
  decide

/-- C8 amended: no exception escapes the dispatch — a `ToolError` becomes a
failure result carrying its message and any other exception one carrying
`"Unknown error: " ++ message`; whenever the carried message is non-empty
the assembled `tool_result` has `is_error = true`; and the loop keeps
processing every block regardless (one result per `tool_use`, always). -/
theorem effector_exception_handled (tc : ToolCollection) (tool : Tool)
    (name tid : String) (input : List (String × String))
    (h : mapGet tc.toolMap name = some tool) :
    (∀ m, tool.execute input = .toolError m →
      ToolCollection.run tc name input = ToolFailure m ∧
      (m ≠ "" →
        makeApiToolResult (ToolCollection.run tc name input) tid =
          .toolResult tid [.text m] true)) ∧
    (∀ m, tool.execute input = .otherError m →
      ToolCollection.run tc name input = ToolFailure ("Unknown error: " ++ m) ∧
      makeApiToolResult (ToolCollection.run tc name input) tid =
        .toolResult tid [.text ("Unknown error: " ++ m)] true) ∧
    (∀ content, (toolUseResults tc content).length = (requestIds content).length) := by
  refine ⟨?_, ?_, ?_⟩
  · intro m hm
    have hrun : ToolCollection.run tc name input = ToolFailure m := by
      simp only [ToolCollection.run, h, hm]
    refine ⟨hrun, fun hne => ?_⟩
    rw [hrun]
    simp [makeApiToolResult, ToolFailure, maybePrependSystemToolResult, strTruthy, hne]
  · intro m hm
    have hrun : ToolCollection.run tc name input = ToolFailure ("Unknown error: " ++ m) := by
      simp only [ToolCollection.run, h, hm]
    have hne : ("Unknown error: " ++ m) ≠ "" := by
      refine prefixed_ne_empty "Unknown error: " m ?_
      decide
    refine ⟨hrun, ?_⟩
    rw [hrun]
    simp [makeApiToolResult, ToolFailure, maybePrependSystemToolResult, strTruthy, hne]
  · intro content
    induction content with
    | nil => rfl
    | cons b rest ih =>
      cases b with
      | toolUse id n i =>
        simp only [toolUseResults, requestIds, List.filterMap_cons] at *
        simp [ih]
      | text t =>
        simp only [toolUseResults, requestIds, List.filterMap_cons] at *
        simpa using ih
      | toolResult id c e =>
        simp only [toolUseResults, requestIds, List.filterMap_cons] at *
        simpa using ih

/-- C8 amended, instantiated at the tool `"crash"` whose exception is not a
`ToolError`. -/
theorem effector_exception_handled_witness :
    ToolCollection.run demoCollection "crash" [] =
      ToolFailure ("Unknown error: " ++ "ENOENT") ∧
    makeApiToolResult (ToolCollection.run demoCollection "crash" []) "t5" =
      .toolResult "t5" [.text ("Unknown error: " ++ "ENOENT")] true :=
  (effector_exception_handled demoCollection crashTool "crash" "t5" [] rfl).2.1 "ENOENT" rfl

/-- The conversation of Scenario E: the two-turn echo run, as the loop
returns it. -/
def demoOut2 : List Message :=
  [initMsg,
   ⟨.assistant, .blocks [Block.toolUse "a" "echo" []]⟩,
   ⟨.user, .blocks [Block.toolResult "a" [TRContent.text "hi"] false]⟩,
   ⟨.assistant, .blocks responseDone⟩]

/-- C3: a terminating loop appends assistant/user turn pairs in which the
user message holds exactly the dispatched results of the assistant message
just before it; the result ids equal the `tool_use` ids positionally and in
order, and when the `tool_use` ids of a response are pairwise distinct each
is answered by exactly one result. -/
theorem loop_request_result_correlation (tc : ToolCollection)
    (responses : List (List Block)) (init out : List Message)
    (h : SamplingLoop.runAux tc responses init = some out) :
    (∃ s, out = init ++ s ∧ LoopSuffix tc s) ∧
    (∀ response, resultIds (toolUseResults tc response) = requestIds response) ∧
    (∀ response, (requestIds response).Nodup → ∀ i ∈ requestIds response,
      (resultIds (toolUseResults tc response)).count i = 1) := by
  refine ⟨runAux_suffix tc responses init out h,
          fun response => resultIds_toolUseResults tc response, ?_⟩
  intro response hnodup i hi
  rw [resultIds_toolUseResults]
  exact List.count_eq_one_of_mem hnodup hi

/-- C3, instantiated at the two-turn echo run. -/
theorem loop_request_result_correlation_witness :
    (∃ s, demoOut2 = [initMsg] ++ s ∧ LoopSuffix demoCollection s) ∧
    (∀ response, resultIds (toolUseResults demoCollection response) = requestIds response) ∧
    (∀ response, (requestIds response).Nodup → ∀ i ∈ requestIds response,
      (resultIds (toolUseResults demoCollection response)).count i = 1) :=
  loop_request_result_correlation demoCollection
    [[Block.toolUse "a" "echo" []], responseDone] [initMsg] demoOut2 rfl

/-- C4: the loop returns exactly when some supplied response carries no
`tool_use` block (with the oracle list exhausted standing for a run that
never terminates), and the two-turn run of Scenario E returns exactly the
4-message conversation. -/
theorem loop_termination :
    (∀ (tc : ToolCollection) (responses : List (List Block)) (messages : List Message),
      (SamplingLoop.runAux tc responses messages).isSome = true ↔
        ∃ r ∈ responses, hasToolUse r = false) ∧
    SamplingLoop.run demoCollection none
        [[Block.toolUse "a" "echo" []], responseDone] [initMsg] = some demoOut2 :=
  ⟨runAux_isSome_iff, by decide⟩

/-- C9: a terminating `run` returns the entry conversation — altered only by
the entry trim, which can merely delete images inside `tool_result`
content — followed by the appended loop turns; no entry message is removed,
reordered or otherwise rewritten. -/
theorem run_appends_only (tc : ToolCollection) (onlyN : Option Nat)
    (responses : List (List Block)) (init out : List Message)
    (h : SamplingLoop.run tc onlyN responses init = some out) :
    ∃ entry suffix, out = entry ++ suffix ∧
      entry.length = init.length ∧
      List.Forall₂ OnlyImagesRemovedMsg init entry ∧
      LoopSuffix tc suffix := by
  simp only [SamplingLoop.run] at h
  by_cases hn : onlyN.getD 0 ≠ 0
  · rw [if_pos hn] at h
    obtain ⟨s, hout, hsuf⟩ := runAux_suffix tc responses _ out h
    refine ⟨filterNMostRecentImages init (onlyN.getD 0) 10, s, hout, ?_, ?_, hsuf⟩
    · exact (filter_onlyImages init (onlyN.getD 0) 10).length_eq.symm
    · exact filter_onlyImages init (onlyN.getD 0) 10
  · rw [if_neg hn] at h
    obtain ⟨s, hout, hsuf⟩ := runAux_suffix tc responses _ out h
    exact ⟨init, s, hout, rfl,
           List.forall₂_same.2 fun m _ => onlyImagesRemovedMsg_self m, hsuf⟩

/-- C9, instantiated at the two-turn echo run (no trimming configured). -/
theorem run_appends_only_witness :
    ∃ entry suffix, demoOut2 = entry ++ suffix ∧
      entry.length = ([initMsg] : List Message).length ∧
      List.Forall₂ OnlyImagesRemovedMsg [initMsg] entry ∧
      LoopSuffix demoCollection suffix :=
  run_appends_only demoCollection none
    [[Block.toolUse "a" "echo" []], responseDone] [initMsg] demoOut2 rfl

/-- C1 fails as stated: with `onlyNMostRecentImages = 1`, a first response
with 12 camera calls leaves 12 images in the conversation sent to (and
returned from) the second turn, while the spec's per-turn trimming would
leave 2; the trimmer is not re-applied before later reasoning-service
calls. -/
theorem trim_every_turn_counterexample :
    (SamplingLoop.run demoCollection (some 1) [response12, responseDone] [initMsg]).map
        totalImagesIn = some 12 ∧
    (runPerTurnTrim demoCollection 1 [response12, responseDone] [initMsg]).map
        totalImagesIn = some 2 ∧
    SamplingLoop.run demoCollection (some 1) [response12, responseDone] [initMsg] ≠
      runPerTurnTrim demoCollection 1 [response12, responseDone] [initMsg] := by
  refine ⟨by decide, by decide, by decide⟩

/-- C1 amended: when configured (non-zero), the trimmer is applied exactly
once, to the conversation supplied at entry, before the first
reasoning-service call; every later turn only appends to that trimmed
conversation and never re-trims it. -/
theorem trim_applied_once_at_entry (tc : ToolCollection) (n : Nat)
    (responses : List (List Block)) (init out : List Message) (hn : n ≠ 0)
    (h : SamplingLoop.run tc (some n) responses init = some out) :
    ∃ suffix, out = filterNMostRecentImages init n 10 ++ suffix ∧ LoopSuffix tc suffix := by
  simp only [SamplingLoop.run] at h
  rw [if_pos (by simpa using hn)] at h
  exact runAux_suffix tc responses _ out h

/-- The conversation the 12-camera-call run actually returns. -/
def demoOut12 : List Message :=
  [initMsg,
   ⟨.assistant, .blocks response12⟩,
   ⟨.user, .blocks (toolUseResults demoCollection response12)⟩,
   ⟨.assistant, .blocks responseDone⟩]

/-- C1 amended, instantiated at the 12-camera-call run. -/
theorem trim_applied_once_at_entry_witness :
    ∃ suffix, demoOut12 = filterNMostRecentImages [initMsg] 1 10 ++ suffix ∧
      LoopSuffix demoCollection suffix :=
  trim_applied_once_at_entry demoCollection 1 [response12, responseDone]
    [initMsg] demoOut12 (by decide) rfl

end ComputerUse

